import Mathlib

/-!
# Verification of dask-awkward lazy IO construction and parquet planning

Shallow embedding of `src/dask_awkward/lib/io/io.py` and
`src/dask_awkward/lib/io/parquet.py`.  Python lists become Lean `List`s,
Python slices become `drop`/`take`, machine integers become `Nat`
(all the integers involved are non-negative row counts and indices),
and code that raises becomes `Except String`.
-/

/-- Python `arr[start:stop]` on a list, for non-negative bounds. -/
def pySlice {α : Type} (arr : List α) (start stop : Nat) : List α :=
  (arr.drop start).take (stop - start)

/-- `True` when a call raised (returned `.error`) rather than producing a
value. -/
def raisesError {ε α : Type} : Except ε α → Bool
  | .error _ => true
  | .ok _ => false

/-! ## `from_map` argument validation and input packing (io.py 385-424) -/

/-- The per-partition inputs `from_map` builds: either the items of the
single iterable used directly (`produces_tasks` set, or exactly one
iterable), or the positional zip of all iterables
(`inputs = list(zip(*iters))`, `packed = True`). -/
inductive FromMapInputs (Item : Type) where
  | unpacked (xs : List Item)
  | packed (xs : List (List Item))
  deriving DecidableEq

/-- Model of the validation and input-packing phase of `from_map`
(io.py lines 385-424).  `callable` abstracts Python `callable(func)`; each
iterable is a `List Item`, so the `isinstance(iterable, Iterable)` check
cannot fail in the typed model.  The Python `set()` of iterable lengths is
modelled by `List.dedup` (emptiness, cardinality and equality to `{0}` are
the only facts the source uses).  Raising `ValueError` is modelled by
returning `.error`; the `AwkwardIOLayer` graph layer is constructed only on
the `.ok` path, after every check.  With all lengths equal,
`list(zip(*iters))` is `iters.transpose`. -/
def from_map (Item : Type) (callable produces_tasks : Bool)
    (iters : List (List Item)) : Except String (FromMapInputs Item) :=
  if callable = false then .error "`func` argument must be `callable`"
  else
    let lengths := (iters.map List.length).dedup
    if lengths.length = 0 then
      .error "`from_map` requires at least one Iterable input"
    else if 1 < lengths.length then
      .error "All `iterables` must have the same length"
    else if lengths = [0] then
      .error "All `iterables` must have a non-zero length"
    else if produces_tasks = true ∨ iters.length = 1 then
      if 1 < iters.length then
        .error "Multiple iterables not supported when produces_tasks=True"
      else .ok (.unpacked (iters.headD []))
    else .ok (.packed iters.transpose)

/-! ## `from_delayed` (io.py 156-168) -/

/-- A value passed to `from_delayed`: a bare `Delayed` handle or a list of
handles.  `Key` abstracts the opaque Dask key of a `Delayed` object. -/
inductive DelayedSource (Key : Type) where
  | single (d : Key)
  | list (ds : List Key)

/-- Result of `from_delayed`: the graph tasks `{(name, i): part.key}` as
partition-index/key pairs, and the divisions tuple. -/
structure FromDelayedResult (Key : Type) where
  tasks : List (Nat × Key)
  divisions : List (Option Nat)
  deriving DecidableEq

/-- Model of `from_delayed` (io.py lines 156-168): a bare handle is wrapped
as the one-element list `[source]`; divisions default to
`(None,) * (len(parts) + 1)`; a supplied divisions tuple of the wrong
length raises `ValueError`. -/
def from_delayed {Key : Type} (source : DelayedSource Key)
    (divisions : Option (List (Option Nat))) :
    Except String (FromDelayedResult Key) :=
  let parts := match source with
    | .single d => [d]
    | .list ds => ds
  match divisions with
  | none => .ok ⟨parts.enum, List.replicate (parts.length + 1) none⟩
  | some divs =>
      if divs.length ≠ parts.length + 1 then
        .error "divisions must be a tuple of length len(source) + 1"
      else .ok ⟨parts.enum, divs⟩

/-! ## `to_dask_array` chunk structure (io.py 228-264) -/

/-- One entry of a Dask array chunk tuple: `np.nan` (size unknown before
execution) or a known integer size. -/
inductive ChunkLen where
  | nan : ChunkLen
  | size : Nat → ChunkLen
  deriving DecidableEq

/-- Model of the chunk structure built by `to_dask_array` (io.py lines
228-264) as a function of the collection's dimensionality and partition
count: `chunks = ((np.nan,) * npartitions,)` in the `ndim == 1` branch, and
`chunks = ((np.nan,) * npartitions, *(((np.nan,),) * (ndim - 1)))` in the
`ndim > 1` branch. -/
def to_dask_array_chunks (ndim npartitions : Nat) : List (List ChunkLen) :=
  if ndim = 1 then [List.replicate npartitions ChunkLen.nan]
  else
    List.replicate npartitions ChunkLen.nan
      :: List.replicate (ndim - 1) [ChunkLen.nan]

/-! ## Theorems for claims C7, C8, C9, C10 -/

/-- C8: `from_map` with a non-callable `func`, no iterables at all,
iterables of unequal length, or iterables all of length zero, raises a
`ValueError` synchronously: the model returns `.error`, and the inputs and
graph layer are only built on the `.ok` path. -/
theorem from_map_config_error (Item : Type) (callable produces_tasks : Bool)
    (iters : List (List Item))
    (h : callable = false ∨ iters = []
        ∨ (∃ a ∈ iters, ∃ b ∈ iters, a.length ≠ b.length)
        ∨ (iters ≠ [] ∧ ∀ l ∈ iters, l.length = 0)) :
    raisesError (from_map Item callable produces_tasks iters) = true := by
  cases callable with
  | false => simp [from_map, raisesError]
  | true =>
    rcases h with h | h | ⟨a, ha, b, hb, hab⟩ | ⟨hne, hz⟩
    · exact absurd h (by simp)
    · subst h
      simp [from_map, raisesError]
    · have hmem_a : a.length ∈ (iters.map List.length).dedup :=
        List.mem_dedup.mpr (List.mem_map_of_mem List.length ha)
      have hmem_b : b.length ∈ (iters.map List.length).dedup :=
        List.mem_dedup.mpr (List.mem_map_of_mem List.length hb)
      have hlen : 1 < (iters.map List.length).dedup.length := by
        rcases hd : (iters.map List.length).dedup with _ | ⟨c, _ | ⟨d, t⟩⟩
        · rw [hd] at hmem_a; exact absurd hmem_a (by simp)
        · rw [hd] at hmem_a hmem_b
          simp only [List.mem_singleton] at hmem_a hmem_b
          exact absurd (hmem_a.trans hmem_b.symm) hab
        · simp
      have h0 : ¬(iters.map List.length).dedup.length = 0 := by omega
      simp [from_map, raisesError, h0, hlen]
    · have hdedup : (iters.map List.length).dedup = [0] := by
        have hnil : (iters.map List.length).dedup ≠ [] := by
          rw [Ne, List.dedup_eq_nil, List.map_eq_nil_iff]
          exact hne
        have hall : ∀ x ∈ (iters.map List.length).dedup, x = 0 := by
          intro x hx
          rcases List.mem_map.mp (List.mem_dedup.mp hx) with ⟨l, hl, hlx⟩
          rw [← hlx]; exact hz l hl
        have hnodup := List.nodup_dedup (iters.map List.length)
        rcases hd : (iters.map List.length).dedup with _ | ⟨c, _ | ⟨d, t⟩⟩
        · exact absurd hd hnil
        · rw [hd] at hall
          have := hall c (by simp)
          rw [this]
        · rw [hd] at hall hnodup
          have hc := hall c (by simp)
          have hdz := hall d (by simp)
          rw [List.nodup_cons] at hnodup
          exact absurd (by rw [hc, hdz]; simp : c ∈ d :: t) hnodup.1
      simp [from_map, raisesError, hdedup]

/-- Witness for C8: callable `func` with two iterables `[0]` and `[1, 2]`
of unequal lengths raises. -/
theorem from_map_config_error_witness :
    ((true = false) ∨ ([[0], [1, 2]] : List (List Nat)) = []
        ∨ (∃ a ∈ ([[0], [1, 2]] : List (List Nat)),
            ∃ b ∈ ([[0], [1, 2]] : List (List Nat)), a.length ≠ b.length)
        ∨ (([[0], [1, 2]] : List (List Nat)) ≠ []
            ∧ ∀ l ∈ ([[0], [1, 2]] : List (List Nat)), l.length = 0))
    ∧ raisesError (from_map Nat true false [[0], [1, 2]]) = true :=
  ⟨by decide, from_map_config_error Nat true false [[0], [1, 2]] (by decide)⟩

/-- C9: `from_map` with `produces_tasks=True` and more than one input
iterable raises a `ValueError`; no graph layer is constructed. -/
theorem from_map_produces_tasks_error (Item : Type) (callable : Bool)
    (iters : List (List Item)) (h : 2 ≤ iters.length) :
    raisesError (from_map Item callable true iters) = true := by
  cases callable with
  | false => simp [from_map, raisesError]
  | true =>
    simp only [from_map]
    split
    · rfl
    · split
      · rfl
      · split
        · rfl
        · split
          · rfl
          · split
            · split
              · rfl
              · omega
            · rename_i hcond
              exact absurd (Or.inl trivial) hcond

/-- Witness for C9: `produces_tasks=True` with the two iterables `[0]` and
`[1]` raises. -/
theorem from_map_produces_tasks_error_witness :
    2 ≤ ([[0], [1]] : List (List Nat)).length
    ∧ raisesError (from_map Nat true true [[0], [1]]) = true :=
  ⟨by decide, from_map_produces_tasks_error Nat true [[0], [1]] (by decide)⟩

/-- C10: a single `Delayed` handle passed directly to `from_delayed` yields
a one-partition collection identical to passing the one-element list, and
with no divisions supplied the divisions are fully unknown of length 2,
`(None, None)`. -/
theorem from_delayed_single_handle {Key : Type} (d : Key) :
    from_delayed (DelayedSource.single d) none
      = from_delayed (DelayedSource.list [d]) none
    ∧ from_delayed (DelayedSource.single d) none
      = .ok ⟨[(0, d)], [none, none]⟩ := by
  exact ⟨rfl, rfl⟩

/-- C7 counterexample: for a 2-dimensional collection with one partition,
the inner axis receives a single NaN-sized chunk `(nan,)`, not a size-1
chunk `(1,)` as the claim states. -/
theorem to_dask_array_inner_chunk_not_size_one :
    to_dask_array_chunks 2 1 = [[ChunkLen.nan], [ChunkLen.nan]]
    ∧ [[ChunkLen.nan], [ChunkLen.nan]]
      ≠ [[ChunkLen.nan], [ChunkLen.size 1]] := by
  decide

/-- C7 (amended): for every collection of dimension `d ≥ 1` with `n`
partitions, `to_dask_array` produces one NaN-sized chunk per partition
along the partition axis and one single NaN-sized placeholder chunk along
each of the `d - 1` inner axes, so the chunk structure has `d` axes. -/
theorem to_dask_array_chunks_spec (d n : Nat) (hd : 1 ≤ d) :
    to_dask_array_chunks d n
      = List.replicate n ChunkLen.nan :: List.replicate (d - 1) [ChunkLen.nan]
    ∧ (to_dask_array_chunks d n).length = d := by
  by_cases h1 : d = 1
  · subst h1
    simp [to_dask_array_chunks]
  · constructor
    · simp [to_dask_array_chunks, h1]
    · simp only [to_dask_array_chunks, if_neg h1, List.length_cons,
        List.length_replicate]
      omega

/-- Witness for C7 (amended) at dimension 3 with 2 partitions. -/
theorem to_dask_array_chunks_spec_witness :
    1 ≤ 3 ∧ to_dask_array_chunks 3 2
      = List.replicate 2 ChunkLen.nan :: List.replicate 2 [ChunkLen.nan] :=
  ⟨by decide, (to_dask_array_chunks_spec 3 2 (by decide)).1⟩

/-! ## Parquet metadata model and the `from_parquet` planner (parquet.py) -/

/-- One row group of the dataset-level parquet metadata:
`metadata.row_group(i).num_rows` and
`metadata.row_group(i).column(0).file_path` (the empty string when the
metadata reports no membership for the row group). -/
structure RowGroupMeta where
  numRows : Nat
  filePath : String
  deriving DecidableEq

/-- One data file of the dataset: its resolved path (an element of
`actual_paths`) and its row groups in order within the file. -/
structure ParquetFileMeta where
  path : String
  rowGroups : List RowGroupMeta
  deriving DecidableEq

/-- The flattened row-group sequence `metadata.row_group(0)`,
... , `metadata.row_group(num_row_groups - 1)` of a dataset-level
`_metadata` file: file order, then row-group order within each file. -/
def flatRowGroups (files : List ParquetFileMeta) : List RowGroupMeta :=
  files.flatMap ParquetFileMeta.rowGroups

/-- Python `fp in p` substring test on strings. -/
def strContains (p fp : String) : Bool :=
  (List.range (p.toList.length + 1)).any
    fun i => fp.toList.isPrefixOf (p.toList.drop i)

/-- The `rgs_paths` counting loop of `from_parquet` (parquet.py lines
126-132): starting from `{path: 0 for path in actual_paths}`, each row
group increments the count of the first path containing its reported
`file_path` as a substring (the first path of all when the `file_path` is
empty — the source comments `# returns 1st if fp is empty`); a row group
whose `file_path` matches no path raises `IndexError`.  The source computes
these counts and never reads them afterwards. -/
def rgsPathsCounts (files : List ParquetFileMeta) :
    Except String (List (String × Nat)) :=
  (flatRowGroups files).foldlM
    (fun counts rg =>
      match (files.map ParquetFileMeta.path).find?
          (fun p => strContains p rg.filePath) with
      | some p =>
          .ok (counts.map fun kv => if kv.1 = p then (kv.1, kv.2 + 1) else kv)
      | none => .error "IndexError: list index out of range")
    ((files.map ParquetFileMeta.path).map fun p => (p, 0))

/-- `divisions = [0] + list(itertools.accumulate([rg.num_rows for rg in
rgs], operator.add))` (parquet.py lines 136-139), over all row groups of
the metadata. -/
def parquetDivisions (files : List ParquetFileMeta) : List Nat :=
  List.scanl (· + ·) 0 ((flatRowGroups files).map RowGroupMeta.numRows)

/-- The planning output of the row-group-wise branch of `from_parquet`:
the per-file row-group index lists `subrg`, the per-partition inputs
`pairs`, and the divisions tuple handed to `from_map`. -/
structure RowGroupPlan where
  subrg : List (List Nat)
  pairs : List (Nat × String)
  divisions : List Nat
  deriving DecidableEq

/-- Model of the row-group-wise branch of `from_parquet` (parquet.py lines
122-154) in the `set(subrg) == {None}` case — the case reached when
`ak_from_parquet.metadata` is called with `row_groups=None`, as
`from_parquet` always does.  The source runs the `rgs_paths` counting
loop, discards the counts, and then sets
`subrg = [list(range(i)) for _ in actual_paths]` where `i` is the leftover
loop variable, equal to `metadata.num_row_groups - 1` (a `NameError` is
raised if the loop never ran because the dataset has no row groups).
`pairs` and `divisions` are then handed to `from_map`. -/
def from_parquet_rowgroups (files : List ParquetFileMeta) :
    Except String RowGroupPlan :=
  if (flatRowGroups files).length = 0 then
    .error "NameError: name 'i' is not defined"
  else
    match rgsPathsCounts files with
    | .error e => .error e
    | .ok _ =>
        let subrg := files.map
          fun _ => List.range ((flatRowGroups files).length - 1)
        let pairs := (subrg.zip (files.map ParquetFileMeta.path)).flatMap
          fun x => x.1.map fun rg => (rg, x.2)
        .ok ⟨subrg, pairs, parquetDivisions files⟩

/-- Modelled from the spec: `ak_from_parquet.metadata` (code of the
awkward library, not of this repository) returns per-row-group
`row_counts` only when a dataset-level aggregated `_metadata` file exists
and `ignore_metadata=False`; otherwise `row_counts is None`. -/
def metadataRowCounts (hasMetadataFile ignore_metadata : Bool)
    (rowGroupCounts : List Nat) : Option (List Nat) :=
  if hasMetadataFile && !ignore_metadata then some rowGroupCounts else none

/-- Lines 99-100 of parquet.py: `if split_row_groups is None:
split_row_groups = row_counts is not None and len(row_counts) > 1`;
line 109 then selects the row-group-wise branch iff the resulting
`split_row_groups` is not `False` and `subrg` is not `None`. -/
def chooseRowGroupGranularity (split_row_groups : Option Bool)
    (row_counts : Option (List Nat)) (subrgIsNone : Bool) : Bool :=
  let split := match split_row_groups with
    | some b => b
    | none => match row_counts with
        | some l => decide (1 < l.length)
        | none => false
  if split = false ∨ subrgIsNone = true then false else true

/-! ## Theorems for claims C2, C3, C4, C5 -/

/-- C2: evaluating the planner at a failing input — one file with two row
groups (5 and 7 rows, no explicit `file_path` in the metadata) — the
row-group branch builds exactly one partition input but a divisions tuple
of length 3, so the invariant `len(divisions) == npartitions + 1` fails. -/
theorem parquet_divisions_length_invariant_broken :
    from_parquet_rowgroups [⟨"a.parquet", [⟨5, ""⟩, ⟨7, ""⟩]⟩]
      = .ok ⟨[[0]], [(0, "a.parquet")], [0, 5, 12]⟩
    ∧ ([0, 5, 12] : List Nat).length
      ≠ ([(0, "a.parquet")] : List (Nat × String)).length + 1 := by
  exact ⟨rfl, by decide⟩

/-- C4: evaluating the planner at a failing input — two files with two row
groups each, none reporting an explicit `file_path` — the planner assigns
every file the index list `range(num_row_groups - 1) = [0, 1, 2]` (the
stale loop variable), not its own row groups `[0, 1]` in sequence, while
the first-match counts (all four row groups counted against the first
path) are computed and discarded. -/
theorem parquet_rowgroup_membership_fallback_broken :
    from_parquet_rowgroups
        [⟨"a.parquet", [⟨5, ""⟩, ⟨7, ""⟩]⟩, ⟨"b.parquet", [⟨3, ""⟩, ⟨4, ""⟩]⟩]
      = .ok ⟨[[0, 1, 2], [0, 1, 2]],
             [(0, "a.parquet"), (1, "a.parquet"), (2, "a.parquet"),
              (0, "b.parquet"), (1, "b.parquet"), (2, "b.parquet")],
             [0, 5, 12, 15, 19]⟩
    ∧ rgsPathsCounts
        [⟨"a.parquet", [⟨5, ""⟩, ⟨7, ""⟩]⟩, ⟨"b.parquet", [⟨3, ""⟩, ⟨4, ""⟩]⟩]
      = .ok [("a.parquet", 4), ("b.parquet", 0)]
    ∧ ([[0, 1, 2], [0, 1, 2]] : List (List Nat)) ≠ [[0, 1], [0, 1]] := by
  exact ⟨rfl, rfl, by decide⟩

/-- C3 (spec-modelled): when the caller leaves `split_row_groups`
unspecified, row-group granularity is chosen iff a dataset-level
`_metadata` file exists, it was not explicitly ignored, and the dataset
has more than one row group; in every other unspecified case file
granularity is chosen.  (`subrg`, one entry per file, is never `None`
itself when the metadata call succeeds.) -/
theorem split_row_groups_default (hasMeta ignore : Bool)
    (counts : List Nat) :
    chooseRowGroupGranularity none (metadataRowCounts hasMeta ignore counts)
        false
      = (hasMeta && !ignore && decide (1 < counts.length)) := by
  cases hasMeta <;> cases ignore <;>
    by_cases h : 1 < counts.length <;>
      simp [chooseRowGroupGranularity, metadataRowCounts, h]

/-- `scanl (+) a l` lists the partial sums `a + sum (take i l)`. -/
theorem scanl_add_eq_map_sum (l : List Nat) (a : Nat) :
    List.scanl (· + ·) a l
      = (List.range (l.length + 1)).map fun i => a + (l.take i).sum := by
  induction l generalizing a with
  | nil => simp
  | cons b t ih =>
      rw [List.scanl_cons, List.range_succ_eq_map]
      simp only [List.map_cons, List.take_zero, List.sum_nil, Nat.add_zero,
        List.map_map, List.length_cons, List.singleton_append]
      rw [ih (a + b)]
      congr 1
      apply List.map_congr_left
      intro i _
      simp [List.take_succ_cons, Nat.add_assoc]

/-- C5: at row-group granularity the divisions are `(0, c_1, ..., c_T)`
where `c_i` is the cumulative row count of the first `i` row groups taken
in file order, then row-group order within file, and the last division is
the dataset's total row count. -/
theorem parquet_divisions_cumulative (files : List ParquetFileMeta) :
    parquetDivisions files
      = (List.range ((flatRowGroups files).length + 1)).map
          (fun i =>
            (((flatRowGroups files).map RowGroupMeta.numRows).take i).sum)
    ∧ (parquetDivisions files).head? = some 0
    ∧ (parquetDivisions files).getLast?
      = some ((flatRowGroups files).map RowGroupMeta.numRows).sum
    ∧ (parquetDivisions files).length = (flatRowGroups files).length + 1 := by
  have hmain : parquetDivisions files
      = (List.range ((flatRowGroups files).length + 1)).map
          (fun i =>
            (((flatRowGroups files).map RowGroupMeta.numRows).take i).sum) := by
    rw [parquetDivisions, scanl_add_eq_map_sum]
    simp
  refine ⟨hmain, ?_, ?_, ?_⟩
  · rw [hmain, List.range_succ_eq_map]
    simp
  · rw [hmain, List.range_succ, List.map_append, List.map_singleton,
      List.getLast?_append_cons]
    have hlen : (flatRowGroups files).length
        = ((flatRowGroups files).map RowGroupMeta.numRows).length :=
      (List.length_map _ _).symm
    rw [List.getLast?_singleton, hlen, List.take_length]
  · rw [parquetDivisions, List.length_scanl]
    simp

/-! ## `_ToParquetFn` partition file names (parquet.py 262-292) -/

/-- Decimal digit list of `n`, most significant first, with recursion fuel;
`natDigitsAux (n + 1) n` is total for every `n`. -/
def natDigitsAux : Nat → Nat → List Nat
  | 0, _ => []
  | fuel + 1, n =>
      if n < 10 then [n] else natDigitsAux fuel (n / 10) ++ [n % 10]

/-- Decimal digits of `n`, most significant first. -/
def natDigits (n : Nat) : List Nat := natDigitsAux (n + 1) n

/-- The character of one decimal digit. -/
def digitChar (d : Nat) : Char := Char.ofNat (48 + d)

/-- Python `str(n)` for a non-negative integer. -/
def natStr (n : Nat) : String := ⟨(natDigits n).map digitChar⟩

/-- Python `s.zfill(w)`: left-pad with `'0'` to minimum total width `w`. -/
def pyZfill (s : String) (w : Nat) : String :=
  ⟨List.replicate (w - s.data.length) '0' ++ s.data⟩

/-- `math.ceil(math.log(npartitions, 10)) if npartitions is not None else 1`
of `_ToParquetFn.__init__` (parquet.py lines 277-279), with the real-number
logarithm and ceiling modelled exactly: the `Nat` ceiling of the base-10
logarithm, `Nat.clog 10`. -/
def zfillWidth (npartitions : Option Nat) : Nat :=
  match npartitions with
  | some n => Nat.clog 10 n
  | none => 1

/-- The file name `f"part{str(block_index[0]).zfill(self.zfill)}.parquet"`
written by `_ToParquetFn.__call__` for partition index `block_index`
(parquet.py lines 281-282); `to_parquet` always passes
`npartitions=data.npartitions`. -/
def toParquetFilename (npartitions : Option Nat) (block_index : Nat) :
    String :=
  "part" ++ pyZfill (natStr block_index) (zfillWidth npartitions)
    ++ ".parquet"

/-- `ceil(log10(10)) = 1`. -/
theorem clog10_ten : Nat.clog 10 10 = 1 :=
  Nat.clog_eq_one (by norm_num) (le_refl 10)

/-- C6 counterexample: with `N = 10` partitions the zfill width is
`ceil(log10(10)) = 1`, not the digit count 2 of `N`, so partition 0 is
written to `part0.parquet`, not `part00.parquet` as the claim states. -/
theorem to_parquet_filename_not_digit_width :
    toParquetFilename (some 10) 0 = "part0.parquet"
    ∧ "part0.parquet" ≠ "part00.parquet" := by
  constructor
  · show "part" ++ pyZfill (natStr 0) (zfillWidth (some 10)) ++ ".parquet"
      = "part0.parquet"
    rw [show zfillWidth (some 10) = 1 from clog10_ten]
    rfl
  · decide

/-- The digit list of `n` has `log10 n + 1` entries (when given enough
fuel, i.e. `n < 10 ^ fuel`). -/
theorem natDigitsAux_length (fuel : Nat) :
    ∀ n : Nat, n < 10 ^ fuel → 1 ≤ fuel →
      (natDigitsAux fuel n).length = Nat.log 10 n + 1 := by
  induction fuel with
  | zero => omega
  | succ f ih =>
      intro n hn _
      rw [natDigitsAux]
      by_cases h10 : n < 10
      · rw [if_pos h10]
        rw [Nat.log_of_lt h10]
        simp
      · rw [if_neg h10]
        have hf1 : 1 ≤ f := by
          by_contra hc
          have : f = 0 := by omega
          rw [this] at hn
          omega
        have hdiv : n / 10 < 10 ^ f := by
          rw [Nat.div_lt_iff_lt_mul (by norm_num)]
          calc n < 10 ^ (f + 1) := hn
          _ = 10 ^ f * 10 := by ring
        rw [List.length_append, ih (n / 10) hdiv hf1]
        have hlog : Nat.log 10 (n / 10) = Nat.log 10 n - 1 :=
          Nat.log_div_base 10 n
        have hpos : 0 < Nat.log 10 n :=
          Nat.log_pos (by norm_num) (by omega)
        simp only [List.length_cons, List.length_nil]
        omega

/-- `len(str(n)) = log10 n + 1`. -/
theorem natStr_length (n : Nat) : (natStr n).length = Nat.log 10 n + 1 := by
  have hfuel : n < 10 ^ (n + 1) := by
    calc n < 10 ^ n := Nat.lt_pow_self (by norm_num) n
    _ ≤ 10 ^ (n + 1) := Nat.pow_le_pow_right (by norm_num) (by omega)
  show ((natDigits n).map digitChar).length = Nat.log 10 n + 1
  rw [List.length_map]
  exact natDigitsAux_length (n + 1) n hfuel (by omega)

/-- For `K < N` and `N ≥ 2`, `str(K)` fits inside the zfill width
`ceil(log10 N)`. -/
theorem natStr_length_le (K N : Nat) (hN : 2 ≤ N) (hK : K < N) :
    (natStr K).length ≤ Nat.clog 10 N := by
  rw [natStr_length]
  by_cases hK0 : K = 0
  · subst hK0
    have : Nat.log 10 0 = 0 := by simp
    rw [this]
    exact Nat.clog_pos (by norm_num) hN
  · by_contra hc
    push_neg at hc
    have h1 : Nat.clog 10 N ≤ Nat.log 10 K := by omega
    have h2 : N ≤ 10 ^ Nat.clog 10 N := Nat.le_pow_clog (by norm_num) N
    have h3 : (10 : Nat) ^ Nat.clog 10 N ≤ 10 ^ Nat.log 10 K :=
      Nat.pow_le_pow_right (by norm_num) h1
    have h4 : (10 : Nat) ^ Nat.log 10 K ≤ K :=
      Nat.pow_log_le_self 10 hK0
    omega

/-- `len(s.zfill(w)) = max w (len s)`. -/
theorem pyZfill_length (s : String) (w : Nat) :
    (pyZfill s w).length = max w s.length := by
  show (List.replicate (w - s.data.length) '0' ++ s.data).length
    = max w s.data.length
  rw [List.length_append, List.length_replicate]
  omega

/-- C6 (amended): partition `K` of an `N`-partition collection is written
to `<root>/part{K}.parquet` with `K` zero-padded to width
`ceil(log10 N)` — the least `w` with `10 ^ w ≥ N` — rather than to the
decimal digit count of `N`; for `N ≥ 2` and `K < N` every file name has
the same length `len("part") + ceil(log10 N) + len(".parquet")`. -/
theorem to_parquet_filename_spec (N K : Nat) (hN : 2 ≤ N) (hK : K < N) :
    toParquetFilename (some N) K
      = "part" ++ pyZfill (natStr K) (Nat.clog 10 N) ++ ".parquet"
    ∧ N ≤ 10 ^ zfillWidth (some N)
    ∧ (∀ j, N ≤ 10 ^ j → zfillWidth (some N) ≤ j)
    ∧ (toParquetFilename (some N) K).length = 12 + zfillWidth (some N) := by
  refine ⟨rfl, Nat.le_pow_clog (by norm_num) N,
    fun j hj => (Nat.le_pow_iff_clog_le (by norm_num)).mp hj, ?_⟩
  have hfit : (natStr K).length ≤ Nat.clog 10 N := natStr_length_le K N hN hK
  show ("part" ++ pyZfill (natStr K) (Nat.clog 10 N) ++ ".parquet").length
    = 12 + Nat.clog 10 N
  rw [String.length_append, String.length_append, pyZfill_length]
  have h4 : "part".length = 4 := rfl
  have h8 : ".parquet".length = 8 := rfl
  omega

/-- Witness for C6 (amended) at `N = 10`, `K = 3`: the file name is
`part3.parquet` of length `13 = 12 + ceil(log10 10)`. -/
theorem to_parquet_filename_spec_witness :
    2 ≤ 10 ∧ 3 < 10
    ∧ toParquetFilename (some 10) 3
      = "part" ++ pyZfill (natStr 3) (Nat.clog 10 10) ++ ".parquet"
    ∧ (toParquetFilename (some 10) 3).length = 12 + zfillWidth (some 10) :=
  ⟨by decide, by decide,
   (to_parquet_filename_spec 10 3 (by decide) (by decide)).1,
   (to_parquet_filename_spec 10 3 (by decide) (by decide)).2.2.2⟩

/-! ## `from_awkward` (io.py 30-79) -/

/-- Ceiling division on `Nat`: `(a + b - 1) / b`, the exact value of
`int(math.ceil(a / b))` for non-negative `a` and positive `b` (and `0`
when `b = 0`, where Python raises; see `from_awkward` below). -/
def ceilDiv (a b : Nat) : Nat := (a + b - 1) / b

/-- The partitions and divisions of a collection built by `from_awkward`. -/
structure FromAwkwardResult (α : Type) where
  partitions : List (List α)
  divisions : List Nat
  deriving DecidableEq

/-- The success value of `from_awkward` (io.py lines 64-79):
`chunksize = int(math.ceil(nrows / npartitions))`,
`locs = list(range(0, nrows, chunksize)) + [nrows]` (Python
`range(0, stop, step)` with `step ≥ 1` is
`List.range' 0 (ceilDiv stop step) step`), `starts = locs[:-1]`,
`stops = locs[1:]`; partition `i` is `source[starts[i]:stops[i]]` via
`_FromAwkwardFn.__call__` (io.py lines 30-35), one partition per
positionally zipped `(start, stop)` pair handed to `from_map`; the
divisions are `tuple(locs)`. -/
def fromAwkwardParts {α : Type} (arr : List α) (npartitions : Nat) :
    FromAwkwardResult α :=
  let nrows := arr.length
  let chunksize := ceilDiv nrows npartitions
  let locs := List.range' 0 (ceilDiv nrows chunksize) chunksize ++ [nrows]
  ⟨(locs.dropLast.zip locs.tail).map fun p => pySlice arr p.1 p.2, locs⟩

/-- Model of `from_awkward` (io.py lines 38-79).  When the computed
`chunksize` is zero — an empty `source` (then `range(0, 0, 0)` raises
`ValueError: range() arg 3 must not be zero`), or `npartitions = 0`
(already a `ZeroDivisionError` at `nrows / npartitions`) — Python
raises. -/
def from_awkward {α : Type} (arr : List α) (npartitions : Nat) :
    Except String (FromAwkwardResult α) :=
  if ceilDiv arr.length npartitions = 0 then
    .error "range() arg 3 must not be zero"
  else .ok (fromAwkwardParts arr npartitions)

/-- C1 counterexample: a 4-row array with `npartitions = 3` yields only 2
partitions (`chunksize = ceil(4/3) = 2`, `locs = [0, 2, 4]`), not 3. -/
theorem from_awkward_partition_count_not_npartitions :
    from_awkward ([0, 1, 2, 3] : List Nat) 3
      = .ok (fromAwkwardParts [0, 1, 2, 3] 3)
    ∧ (fromAwkwardParts ([0, 1, 2, 3] : List Nat) 3).partitions
      = [[0, 1], [2, 3]]
    ∧ (fromAwkwardParts ([0, 1, 2, 3] : List Nat) 3).partitions.length = 2
    ∧ (2 : Nat) ≠ 3 := by
  refine ⟨rfl, rfl, rfl, by decide⟩

/-- `ceilDiv` is Mathlib's `⌈/⌉` on `Nat`. -/
theorem ceilDiv_eq_mathlib (a b : Nat) : ceilDiv a b = a ⌈/⌉ b :=
  (Nat.ceilDiv_eq_add_pred_div a b).symm

theorem ceilDiv_pos (a b : Nat) (ha : 1 ≤ a) (hb : 1 ≤ b) :
    1 ≤ ceilDiv a b := by
  rw [ceilDiv, Nat.one_le_div_iff (by omega)]
  omega

theorem le_mul_ceilDiv (a b : Nat) (hb : 1 ≤ b) : a ≤ b * ceilDiv a b := by
  rw [ceilDiv_eq_mathlib]
  exact (ceilDiv_le_iff_le_mul (by omega : (0 : Nat) < b)).mp (le_refl _)

theorem ceilDiv_le (a b m : Nat) (hb : 1 ≤ b) (h : a ≤ b * m) :
    ceilDiv a b ≤ m := by
  rw [ceilDiv_eq_mathlib]
  exact (ceilDiv_le_iff_le_mul (by omega : (0 : Nat) < b)).mpr h

theorem mul_ceilDiv_lt (a b : Nat) (hb : 1 ≤ b) :
    b * ceilDiv a b < a + b := by
  rcases hcd : ceilDiv a b with _ | m
  · omega
  · by_contra hc
    push_neg at hc
    have hle : a ≤ b * m := by
      have hsplit : b * (m + 1) = b * m + b := Nat.mul_succ b m
      omega
    have h2 := ceilDiv_le a b m hb hle
    omega

/-- `range'` with any step is monotone non-decreasing. -/
theorem chain'_le_range' (c : Nat) : ∀ (n s : Nat),
    (List.range' s n c).Chain' (· ≤ ·) := by
  intro n
  induction n with
  | zero => intro s; simp
  | succ m ih =>
      intro s
      rw [List.range'_succ]
      rcases m with _ | k
      · simp
      · rw [List.chain'_cons']
        refine ⟨?_, ih (s + c)⟩
        intro b hb
        rw [List.range'_succ] at hb
        simp at hb
        omega

/-- The last element of a non-empty `range'`. -/
theorem getLast?_range'_succ (s n c : Nat) :
    (List.range' s (n + 1) c).getLast? = some (s + c * n) := by
  rw [List.range'_concat]
  exact List.getLast?_concat _

/-- Dropping the last element does not change `zip` with the tail. -/
theorem dropLast_zip_tail {α : Type} (l : List α) :
    l.dropLast.zip l.tail = l.zip l.tail := by
  induction l with
  | nil => rfl
  | cons x t ih =>
      cases t with
      | nil => rfl
      | cons y t2 =>
          show (x :: (y :: t2).dropLast).zip (y :: t2)
            = (x :: y :: t2).zip (y :: t2)
          rw [List.zip_cons_cons, show (x :: y :: t2).zip (y :: t2)
            = (x, y) :: (y :: t2).zip t2 from rfl,
            show (y :: t2).dropLast.zip t2 = (y :: t2).zip t2 from ih]

/-- In a `≤`-chain, every element is at most the last one. -/
theorem le_of_mem_chain'_getLast :
    ∀ (l : List Nat) (m : Nat), l.Chain' (· ≤ ·) → l.getLast? = some m →
      ∀ x ∈ l, x ≤ m := by
  intro l
  induction l with
  | nil => intro m _ _ x hx; simp at hx
  | cons a t ih =>
      intro m hc hl x hx
      cases t with
      | nil =>
          simp at hl hx
          omega
      | cons b t2 =>
          rw [List.getLast?_cons_cons] at hl
          have hab : a ≤ b := (List.chain'_cons.mp hc).1
          have hct : (b :: t2).Chain' (· ≤ ·) := (List.chain'_cons.mp hc).2
          rcases List.mem_cons.mp hx with hxa | hxt
          · have hbm := ih m hct hl b (by simp)
            omega
          · exact ih m hct hl x hxt

/-- Concatenating consecutive slices from a monotone boundary list starting
at `s` and ending at `arr.length` reproduces `arr.drop s`. -/
theorem flatten_slices {α : Type} (arr : List α) :
    ∀ (bs : List Nat) (s : Nat), bs.Chain' (· ≤ ·) → bs.head? = some s →
      bs.getLast? = some arr.length →
      ((bs.zip bs.tail).map fun p => pySlice arr p.1 p.2).flatten
        = arr.drop s := by
  intro bs
  induction bs with
  | nil => intro s _ hh _; simp at hh
  | cons a t ih =>
      intro s hc hh hl
      have hsa : a = s := by simp at hh; omega
      subst hsa
      cases t with
      | nil =>
          simp at hl
          simp [hl]
      | cons b t2 =>
          rw [show (a :: b :: t2).tail = b :: t2 from rfl,
            List.zip_cons_cons, List.map_cons, List.flatten_cons]
          have hab : a ≤ b := (List.chain'_cons.mp hc).1
          have hrec := ih b (List.chain'_cons.mp hc).2 rfl
            (by rw [← List.getLast?_cons_cons (a := b)]; exact hl)
          have hrec2 : (List.map (fun p => pySlice arr p.1 p.2)
              ((b :: t2).zip t2)).flatten = List.drop b arr := hrec
          rw [hrec2]
          show pySlice arr a b ++ arr.drop b = arr.drop a
          rw [pySlice]
          have hdd : arr.drop b = (arr.drop a).drop (b - a) := by
            rw [List.drop_drop]
            congr 1
            omega
          rw [hdd, List.take_append_drop]

/-- The length of each consecutive slice from a monotone boundary list
ending at `arr.length` is the boundary difference. -/
theorem slices_lengths {α : Type} (arr : List α) :
    ∀ (bs : List Nat), bs.Chain' (· ≤ ·) →
      bs.getLast? = some arr.length →
      ((bs.zip bs.tail).map fun p => pySlice arr p.1 p.2).map List.length
        = (bs.zip bs.tail).map fun p => p.2 - p.1 := by
  intro bs
  induction bs with
  | nil => intro _ _; rfl
  | cons a t ih =>
      intro hc hl
      cases t with
      | nil => rfl
      | cons b t2 =>
          rw [show (a :: b :: t2).tail = b :: t2 from rfl,
            List.zip_cons_cons, List.map_cons, List.map_cons, List.map_cons]
          have hct : (b :: t2).Chain' (· ≤ ·) := (List.chain'_cons.mp hc).2
          have hlt : (b :: t2).getLast? = some arr.length := by
            rw [← List.getLast?_cons_cons (a := b)]; exact hl
          congr 1
          · have hb_le : b ≤ arr.length :=
              le_of_mem_chain'_getLast (b :: t2) arr.length hct hlt b (by simp)
            show (pySlice arr a b).length = b - a
            rw [pySlice, List.length_take, List.length_drop]
            omega
          · exact ih hct hlt

/-- One step of the consecutive-pair map. -/
theorem map_zip_tail_cons {α β : Type} (f : α × α → β) (x y : α)
    (l : List α) :
    ((x :: y :: l).zip (x :: y :: l).tail).map f
      = f (x, y) :: ((y :: l).zip (y :: l).tail).map f := rfl

/-- The consecutive differences of `range' s (k+1) c ++ [t]`. -/
theorem deltas_range'_append (c t : Nat) :
    ∀ (k s : Nat),
      (((List.range' s (k + 1) c ++ [t]).zip
          (List.range' s (k + 1) c ++ [t]).tail).map fun p => p.2 - p.1)
        = List.replicate k c ++ [t - (s + c * k)] := by
  intro k
  induction k with
  | zero =>
      intro s
      simp [List.range'_succ]
  | succ k ih =>
      intro s
      rw [List.range'_succ, List.cons_append]
      have hexp : List.range' (s + c) (k + 1) c ++ [t]
          = (s + c) :: (List.range' (s + c + c) k c ++ [t]) := by
        rw [List.range'_succ, List.cons_append]
      rw [hexp, map_zip_tail_cons, ← hexp, ih (s + c)]
      rw [List.replicate_succ, List.cons_append]
      have hmul : c * (k + 1) = c * k + c := Nat.mul_succ c k
      show (s + c - s) :: (List.replicate k c ++ [t - (s + c + c * k)])
        = c :: (List.replicate k c ++ [t - (s + c * (k + 1))])
      have h1 : s + c - s = c := by omega
      have h2 : t - (s + c + c * k) = t - (s + c * (k + 1)) := by omega
      rw [h1, h2]

/-- C1 (amended): for `N ≥ 1` and a concrete array of `L ≥ 1` rows (with
`L = 0` the call raises, since the slice-boundary `range` gets step 0),
`from_awkward(arr, N)` succeeds with exactly `ceil(L / ceil(L/N))`
partitions — at most `N`, and fewer than `N` whenever the `ceil(L/N)`-row
chunks cover the array early — whose concatenated rows equal `arr`; the
divisions have one more entry than there are partitions, start at 0 and
end at `L`; and every partition has `ceil(L/N)` rows except possibly the
last, which has the remaining `L - ceil(L/N) * (npartitions - 1)` rows
(at most `ceil(L/N)`). -/
theorem from_awkward_spec {α : Type} (arr : List α) (N : Nat)
    (hN : 1 ≤ N) (hL : 1 ≤ arr.length) :
    from_awkward arr N = .ok (fromAwkwardParts arr N)
    ∧ (fromAwkwardParts arr N).partitions.length
      = ceilDiv arr.length (ceilDiv arr.length N)
    ∧ (fromAwkwardParts arr N).partitions.length ≤ N
    ∧ (fromAwkwardParts arr N).partitions.flatten = arr
    ∧ (fromAwkwardParts arr N).divisions.length
      = (fromAwkwardParts arr N).partitions.length + 1
    ∧ (fromAwkwardParts arr N).divisions.head? = some 0
    ∧ (fromAwkwardParts arr N).divisions.getLast? = some arr.length
    ∧ (fromAwkwardParts arr N).partitions.map List.length
      = List.replicate (ceilDiv arr.length (ceilDiv arr.length N) - 1)
          (ceilDiv arr.length N)
        ++ [arr.length
            - ceilDiv arr.length N
              * (ceilDiv arr.length (ceilDiv arr.length N) - 1)]
    ∧ arr.length
        - ceilDiv arr.length N
          * (ceilDiv arr.length (ceilDiv arr.length N) - 1)
      ≤ ceilDiv arr.length N := by
  have hc : 1 ≤ ceilDiv arr.length N := ceilDiv_pos _ _ hL hN
  have hk : 1 ≤ ceilDiv arr.length (ceilDiv arr.length N) :=
    ceilDiv_pos _ _ hL hc
  set L := arr.length with hLdef
  set c := ceilDiv L N with hcdef
  set k := ceilDiv L c with hkdef
  have hLck : L ≤ c * k := le_mul_ceilDiv L c hc
  have hckU : c * k < L + c := mul_ceilDiv_lt L c hc
  have hksplit : c * k = c * (k - 1) + c := by
    rcases hkc : k with _ | m
    · omega
    · rw [Nat.mul_succ]
      simp
  have hkN : k ≤ N := by
    apply ceilDiv_le L c N hc
    calc L ≤ N * c := le_mul_ceilDiv L N hN
    _ = c * N := Nat.mul_comm N c
  have hlastlt : c * (k - 1) < L := by omega
  have hkk : k = (k - 1) + 1 := by omega
  have hchain : (List.range' 0 k c ++ [L]).Chain' (· ≤ ·) := by
    apply List.Chain'.append (chain'_le_range' c k 0)
      (List.chain'_singleton L)
    intro x hx y hy
    rw [hkk, getLast?_range'_succ] at hx
    simp at hx hy
    omega
  have hhead : (List.range' 0 k c ++ [L]).head? = some 0 := by
    rw [hkk, List.range'_succ]
    rfl
  have hlast : (List.range' 0 k c ++ [L]).getLast? = some L :=
    List.getLast?_concat _
  have hparts : (fromAwkwardParts arr N).partitions
      = ((List.range' 0 k c ++ [L]).zip
          (List.range' 0 k c ++ [L]).tail).map
        fun p => pySlice arr p.1 p.2 := by
    show ((List.range' 0 k c ++ [L]).dropLast.zip
        (List.range' 0 k c ++ [L]).tail).map (fun p => pySlice arr p.1 p.2)
      = _
    rw [dropLast_zip_tail]
  have hdivs : (fromAwkwardParts arr N).divisions
      = List.range' 0 k c ++ [L] := rfl
  have hplen : (fromAwkwardParts arr N).partitions.length = k := by
    rw [hparts, List.length_map, List.length_zip]
    simp
  refine ⟨?_, hplen, ?_, ?_, ?_, ?_, ?_, ?_, ?_⟩
  · rw [from_awkward, if_neg (by rw [← hLdef, ← hcdef]; omega)]
  · rw [hplen]
    exact hkN
  · rw [hparts, flatten_slices arr _ 0 hchain hhead hlast, List.drop_zero]
  · rw [hdivs, hplen]
    simp
  · rw [hdivs]
    exact hhead
  · rw [hdivs]
    exact hlast
  · have hdel := deltas_range'_append c L (k - 1) 0
    rw [← hkk] at hdel
    rw [hparts, slices_lengths arr _ hchain hlast, hdel]
    simp
  · have h2 : L ≤ c * (k - 1) + c := by rw [← hksplit]; exact hLck
    omega

/-- Witness for C1 (amended) at the 5-row array `[3, 1, 4, 1, 5]` with
`N = 2`: `chunksize = 3`, partitions `[[3, 1, 4], [1, 5]]`, divisions
`(0, 3, 5)`. -/
theorem from_awkward_spec_witness :
    1 ≤ 2 ∧ 1 ≤ ([3, 1, 4, 1, 5] : List Nat).length
    ∧ from_awkward ([3, 1, 4, 1, 5] : List Nat) 2
      = .ok (fromAwkwardParts [3, 1, 4, 1, 5] 2)
    ∧ (fromAwkwardParts ([3, 1, 4, 1, 5] : List Nat) 2).partitions.flatten
      = [3, 1, 4, 1, 5]
    ∧ (fromAwkwardParts ([3, 1, 4, 1, 5] : List Nat) 2).divisions.getLast?
      = some ([3, 1, 4, 1, 5] : List Nat).length :=
  ⟨by decide, by decide,
   (from_awkward_spec [3, 1, 4, 1, 5] 2 (by decide) (by decide)).1,
   (from_awkward_spec [3, 1, 4, 1, 5] 2 (by decide) (by decide)).2.2.2.1,
   (from_awkward_spec [3, 1, 4, 1, 5] 2 (by decide)
     (by decide)).2.2.2.2.2.2.1⟩
